import Mathlib

/-!
Shallow embedding of the jada nutrition tracker (Rust sources
`src/food_database.rs` and `src/food_log.rs`).

Modelling conventions:
* `f64` values (calories, servings, quantities) are modelled as `ℚ`;
  every arithmetic identity proved here is exact rational arithmetic.
* Rust `&mut self` methods returning `Result<(), io::Error>` are modelled
  as state-passing functions returning `Except E Unit × State`; the second
  component is the state after the call (Rust mutates in place, so a
  method can both return an error and leave the state changed).
* `Vec::push`/`Vec::pop` treat the end of the vector as the stack top;
  we model the undo stack as a `List` whose head is the stack top, so
  `push` is `cons` and `pop` matches on the head.
* The `io::Error` values of the source are modelled by small inductive
  error types, one constructor per distinct error site (the spec's
  taxonomy names: `DuplicateIdentifier`, `ComponentNotFound`, `NotFound`,
  `NothingToUndo`, `InconsistentState`, `InvalidDate`, `InvalidRange`).
* File persistence (`save`, YAML I/O) is external I/O and is dropped from
  the in-memory transition functions; `load`'s pure resolution logic is
  modelled on the already-deserialized records.
* `chrono::NaiveDate` is modelled by a `Date` structure of numerals with
  proleptic-Gregorian calendar validation, chronological (lexicographic)
  order, and a successor function mirroring `succ_opt`.
-/

/-- Model of `BasicFood` (src/food_database.rs): identifier, keywords and
calories per serving. -/
structure BasicFood where
  identifier : String
  keywords : List String
  calories_per_serving : ℚ
deriving DecidableEq, Repr

/-- Model of `BasicFood::get_calories`: the stored rate. -/
def BasicFood.get_calories (f : BasicFood) : ℚ :=
  f.calories_per_serving

/-- Model of `CompositeFood` (src/food_database.rs): the component list
pairs a `BasicFood` with a quantity; by construction it only ever holds
atomic foods. -/
structure CompositeFood where
  identifier : String
  keywords : List String
  components : List (BasicFood × ℚ)
deriving DecidableEq, Repr

/-- Model of `CompositeFood::get_calories`: sum over the flattened
component list of calories-per-serving times quantity. -/
def CompositeFood.get_calories (f : CompositeFood) : ℚ :=
  (f.components.map (fun p => p.1.get_calories * p.2)).sum

/-- Model of `FoodDatabase` (src/food_database.rs); the file-path and
LLM-endpoint fields are I/O configuration and are omitted. -/
structure FoodDatabase where
  basic_foods : List BasicFood
  composite_foods : List CompositeFood
deriving DecidableEq, Repr

/-- Model of `FoodDatabase::new`: empty catalog. -/
def FoodDatabase.new : FoodDatabase :=
  ⟨[], []⟩

/-- Errors raised by the catalog mutators, one constructor per error site
(`io::ErrorKind::AlreadyExists` and `io::ErrorKind::NotFound` in the
source; the spec calls them `DuplicateIdentifier` and
`ComponentNotFound`). -/
inductive FoodError where
  | duplicateIdentifier
  | componentNotFound (identifier : String)
deriving DecidableEq, Repr

/-- Model of `FoodDatabase::get_basic_food`: first basic food with the
given identifier. -/
def FoodDatabase.get_basic_food (db : FoodDatabase) (identifier : String) : Option BasicFood :=
  db.basic_foods.find? (fun f => f.identifier == identifier)

/-- Model of `FoodDatabase::get_composite_food`: first composite food with
the given identifier. -/
def FoodDatabase.get_composite_food (db : FoodDatabase) (identifier : String) : Option CompositeFood :=
  db.composite_foods.find? (fun f => f.identifier == identifier)

/-- Model of `FoodDatabase::add_basic_food`: fails when an existing
*basic* food already uses the identifier, otherwise appends the new basic
food (the `save()` call is external I/O and is dropped). -/
def FoodDatabase.add_basic_food (db : FoodDatabase) (identifier : String)
    (keywords : List String) (calories_per_serving : ℚ) :
    Except FoodError Unit × FoodDatabase :=
  if db.basic_foods.any (fun food => food.identifier == identifier) then
    (Except.error FoodError.duplicateIdentifier, db)
  else
    (Except.ok (),
      { db with basic_foods :=
          db.basic_foods ++ [⟨identifier, keywords, calories_per_serving⟩] })

/-- Component-resolution loop of `FoodDatabase::add_composite_food`
(src/food_database.rs lines 161-183): each reference is looked up among
the basic foods first, then among the composite foods; a composite hit
contributes its stored components with quantities scaled by
`comp_quantity * quantity`; an unresolved reference aborts with
`ComponentNotFound`. -/
def FoodDatabase.build_components (db : FoodDatabase) :
    List (String × ℚ) → Except FoodError (List (BasicFood × ℚ))
  | [] => Except.ok []
  | (food_id, quantity) :: rest =>
    match db.basic_foods.find? (fun bf => bf.identifier == food_id) with
    | some basic_food =>
      match db.build_components rest with
      | Except.ok comps => Except.ok ((basic_food, quantity) :: comps)
      | Except.error e => Except.error e
    | none =>
      match db.composite_foods.find? (fun cf => cf.identifier == food_id) with
      | some composite_food =>
        match db.build_components rest with
        | Except.ok comps =>
          Except.ok
            (composite_food.components.map (fun p => (p.1, p.2 * quantity)) ++ comps)
        | Except.error e => Except.error e
      | none => Except.error (FoodError.componentNotFound food_id)

/-- Model of `FoodDatabase::add_composite_food`: fails when an existing
*composite* food already uses the identifier; otherwise resolves the
component references with `build_components` and, on success, appends the
new flattened composite (`save()` is dropped as external I/O). -/
def FoodDatabase.add_composite_food (db : FoodDatabase) (identifier : String)
    (keywords : List String) (component_ids : List (String × ℚ)) :
    Except FoodError Unit × FoodDatabase :=
  if db.composite_foods.any (fun food => food.identifier == identifier) then
    (Except.error FoodError.duplicateIdentifier, db)
  else
    match db.build_components component_ids with
    | Except.ok components =>
      (Except.ok (),
        { db with composite_foods :=
            db.composite_foods ++ [⟨identifier, keywords, components⟩] })
    | Except.error e => (Except.error e, db)

/-- Resolution of one component reference on the success path of
`add_composite_food`: the list of `(BasicFood, quantity)` pairs it
contributes (one pair for an atomic hit, the scaled stored components for
a composite hit, nothing otherwise). -/
def FoodDatabase.resolve_ref (db : FoodDatabase) (r : String × ℚ) :
    List (BasicFood × ℚ) :=
  match db.basic_foods.find? (fun bf => bf.identifier == r.1) with
  | some basic_food => [(basic_food, r.2)]
  | none =>
    match db.composite_foods.find? (fun cf => cf.identifier == r.1) with
    | some composite_food =>
      composite_food.components.map (fun p => (p.1, p.2 * r.2))
    | none => []

/-- Whether a component reference resolves to an existing basic or
composite food. -/
def FoodDatabase.resolvable (db : FoodDatabase) (food_id : String) : Bool :=
  db.basic_foods.any (fun bf => bf.identifier == food_id) ||
    db.composite_foods.any (fun cf => cf.identifier == food_id)

/-- Model of the serialized component record `FoodComponent`
(src/food_database.rs). -/
structure FoodComponent where
  food_id : String
  quantity : ℚ
deriving DecidableEq, Repr

/-- Model of `SerializedCompositeFood` (src/food_database.rs): a persisted
composite-food record. -/
structure SerializedCompositeFood where
  identifier : String
  keywords : List String
  components : List FoodComponent
deriving DecidableEq, Repr

/-- Resolution of one persisted composite record in `FoodDatabase::load`
(src/food_database.rs lines 48-67): each component is looked up among the
basic foods only; a component whose identifier names no basic food is
skipped (the source prints a warning, which is I/O). -/
def load_composite_record (basic_foods : List BasicFood)
    (sf : SerializedCompositeFood) : CompositeFood :=
  ⟨sf.identifier, sf.keywords,
    sf.components.filterMap (fun c =>
      (basic_foods.find? (fun bf => bf.identifier == c.food_id)).map
        (fun bf => (bf, c.quantity)))⟩

/-- Composite-food portion of `FoodDatabase::load`: the composite list is
reset and rebuilt by resolving each record in file order against the
basic foods. -/
def load_composite_foods (basic_foods : List BasicFood)
    (records : List SerializedCompositeFood) : List CompositeFood :=
  records.map (load_composite_record basic_foods)

/-- Replay of `add_composite_food` over persisted records in file order;
this is the spec-side comparator for the load/addComposite refinement
("exactly as `addComposite` would, in file order"), built from the source
`add_composite_food`. -/
def add_composites_in_order (db : FoodDatabase) :
    List SerializedCompositeFood → Except FoodError FoodDatabase
  | [] => Except.ok db
  | sf :: rest =>
    match db.add_composite_food sf.identifier sf.keywords
        (sf.components.map (fun c => (c.food_id, c.quantity))) with
    | (Except.ok _, db') => add_composites_in_order db' rest
    | (Except.error e, _) => Except.error e

/-- Model of `LogEntry` (src/food_log.rs): food identifier, servings and
the snapshotted calories-per-serving. -/
structure LogEntry where
  food_id : String
  servings : ℚ
  calories : ℚ
deriving DecidableEq, Repr

/-- Model of the `UndoAction` enum (src/food_log.rs): `Add(food_id,
previous_servings)` or `Remove(entry)`. -/
inductive UndoAction where
  | add (food_id : String) (prev_servings : ℚ)
  | remove (entry : LogEntry)
deriving DecidableEq, Repr

/-- Model of `DailyLog` (src/food_log.rs): date, entry list and the undo
stack (head of the list is the stack top). -/
structure DailyLog where
  date : String
  entries : List LogEntry
  undo_stack : List UndoAction
deriving DecidableEq, Repr

/-- Model of `DailyLog::new`. -/
def DailyLog.new (date : String) : DailyLog :=
  ⟨date, [], []⟩

/-- Errors raised by the log mutators (`io::ErrorKind::NotFound` with the
two messages "Food ... not found in log" / "No actions to undo", and
`io::ErrorKind::InvalidData` "Invalid undo action: food not found"; the
spec calls them `NotFound`, `NothingToUndo` and `InconsistentState`). -/
inductive LogError where
  | notFound
  | nothingToUndo
  | inconsistentState
deriving DecidableEq, Repr

/-- In-place update of the first list element satisfying `p`, modelling
Rust's `iter_mut().find(p)` followed by a field assignment. -/
def set_first (p : LogEntry → Bool) (f : LogEntry → LogEntry) :
    List LogEntry → List LogEntry
  | [] => []
  | a :: as_ => if p a then f a :: as_ else a :: set_first p f as_

/-- Model of `DailyLog::add_entry`: merge into the first entry with the
same food identifier (pushing `Add(id, previous_servings)`), or append a
new entry with the snapshotted calorie rate (pushing `Add(id, 0)`).
Always succeeds. -/
def DailyLog.add_entry (log : DailyLog) (food : BasicFood) (servings : ℚ) :
    DailyLog :=
  match log.entries.find? (fun e => e.food_id == food.identifier) with
  | some existing_entry =>
    { log with
      entries := set_first (fun e => e.food_id == food.identifier)
        (fun e => { e with servings := e.servings + servings }) log.entries,
      undo_stack :=
        UndoAction.add food.identifier existing_entry.servings :: log.undo_stack }
  | none =>
    { log with
      entries := log.entries ++
        [⟨food.identifier, servings, food.calories_per_serving⟩],
      undo_stack := UndoAction.add food.identifier 0 :: log.undo_stack }

/-- Model of `DailyLog::remove_entry`: remove the first entry with the
given food identifier (pushing `Remove(entry)`), or fail with `NotFound`
leaving the log unchanged. -/
def DailyLog.remove_entry (log : DailyLog) (food_id : String) :
    Except LogError Unit × DailyLog :=
  match log.entries.find? (fun e => e.food_id == food_id) with
  | some removed_entry =>
    (Except.ok (),
      { log with
        entries := log.entries.eraseP (fun e => e.food_id == food_id),
        undo_stack := UndoAction.remove removed_entry :: log.undo_stack })
  | none => (Except.error LogError.notFound, log)

/-- Model of `DailyLog::undo`: pop one action (the pop happens before any
check, so a failing `Add` undo still consumes the action); for
`Add(id, prev)` with the entry present, restore `servings := prev` when
`prev > 0`, else delete the entry; with the entry absent fail with
`InconsistentState`; for `Remove(entry)` re-append the entry at the end;
fail with `NothingToUndo` on an empty stack. -/
def DailyLog.undo (log : DailyLog) : Except LogError Unit × DailyLog :=
  match log.undo_stack with
  | [] => (Except.error LogError.nothingToUndo, log)
  | UndoAction.add food_id prev_servings :: rest =>
    match log.entries.find? (fun e => e.food_id == food_id) with
    | some _ =>
      if 0 < prev_servings then
        (Except.ok (),
          { log with
            entries := set_first (fun e => e.food_id == food_id)
              (fun e => { e with servings := prev_servings }) log.entries,
            undo_stack := rest })
      else
        (Except.ok (),
          { log with
            entries := log.entries.eraseP (fun e => e.food_id == food_id),
            undo_stack := rest })
    | none =>
      (Except.error LogError.inconsistentState, { log with undo_stack := rest })
  | UndoAction.remove entry :: rest =>
    (Except.ok (),
      { log with entries := log.entries ++ [entry], undo_stack := rest })

/-- Model of `DailyLog::calculate_total_calories`: sum of calories times
servings over the entries. -/
def DailyLog.calculate_total_calories (log : DailyLog) : ℚ :=
  (log.entries.map (fun e => e.calories * e.servings)).sum

/-- Model of `chrono::NaiveDate` as a plain year/month/day record
(non-negative years of the proleptic Gregorian calendar, which covers
every date the `%Y-%m-%d` format of the source can round-trip). -/
@[ext]
structure Date where
  year : Nat
  month : Nat
  day : Nat
deriving DecidableEq, Repr

/-- Chronological strict order on dates, which for year/month/day records
is lexicographic (this is `chrono`'s `Ord` on `NaiveDate`). -/
def Date.lt (a b : Date) : Prop :=
  a.year < b.year ∨
    (a.year = b.year ∧
      (a.month < b.month ∨ (a.month = b.month ∧ a.day < b.day)))

/-- Chronological order on dates (lexicographic, non-strict). -/
def Date.le (a b : Date) : Prop :=
  a.year < b.year ∨
    (a.year = b.year ∧
      (a.month < b.month ∨ (a.month = b.month ∧ a.day ≤ b.day)))

instance : LT Date := ⟨Date.lt⟩

instance : LE Date := ⟨Date.le⟩

instance (a b : Date) : Decidable (a < b) := by
  change Decidable (Date.lt a b)
  unfold Date.lt
  infer_instance

instance (a b : Date) : Decidable (a ≤ b) := by
  change Decidable (Date.le a b)
  unfold Date.le
  infer_instance

/-- Gregorian leap-year test used by `chrono`. -/
def Date.is_leap_year (y : Nat) : Bool :=
  y % 4 == 0 && (y % 100 != 0 || y % 400 == 0)

/-- Number of days in a month of the Gregorian calendar. -/
def Date.days_in_month (y m : Nat) : Nat :=
  if m == 2 then (if Date.is_leap_year y then 29 else 28)
  else if m == 4 || m == 6 || m == 9 || m == 11 then 30
  else 31

/-- Calendar validity of a year/month/day record. -/
def Date.is_valid (d : Date) : Prop :=
  1 ≤ d.month ∧ d.month ≤ 12 ∧ 1 ≤ d.day ∧ d.day ≤ Date.days_in_month d.year d.month

instance (d : Date) : Decidable d.is_valid := by
  unfold Date.is_valid
  infer_instance

/-- Model of `NaiveDate::succ_opt` (next calendar day); total here because
the model's years are unbounded. -/
def Date.succ (d : Date) : Date :=
  if d.day < Date.days_in_month d.year d.month then ⟨d.year, d.month, d.day + 1⟩
  else if d.month < 12 then ⟨d.year, d.month + 1, 1⟩
  else ⟨d.year + 1, 1, 1⟩

/-- Strictly monotone numeral measure of a date, used as fuel for the
date-range walk (months have at most 31 days, so `372·y + 31·m + d` is
strictly increasing along `Date.succ`). -/
def Date.rank (d : Date) : Nat :=
  372 * d.year + 31 * d.month + d.day

/-- Left zero-padding of a numeral to at least two digits. -/
def pad2 (n : Nat) : String :=
  if n < 10 then "0" ++ toString n else toString n

/-- Left zero-padding of a numeral to at least four digits. -/
def pad4 (n : Nat) : String :=
  if n < 10 then "000" ++ toString n
  else if n < 100 then "00" ++ toString n
  else if n < 1000 then "0" ++ toString n
  else toString n

/-- Model of `NaiveDate`'s `%Y-%m-%d` formatting (zero-padded). -/
def Date.format (d : Date) : String :=
  pad4 d.year ++ "-" ++ pad2 d.month ++ "-" ++ pad2 d.day

/-- Splitting of a character list at every dash, keeping empty groups
(the semantics of splitting a string on the separator `"-"`). -/
def split_dash : List Char → List (List Char)
  | [] => [[]]
  | c :: rest =>
    if c = '-' then [] :: split_dash rest
    else
      match split_dash rest with
      | g :: gs => (c :: g) :: gs
      | [] => [[c]]

/-- Numeric value of a non-empty all-digit character group, `none`
otherwise. -/
def digits_to_nat? (cs : List Char) : Option Nat :=
  if cs ≠ [] ∧ cs.all Char.isDigit then
    some (cs.foldl (fun n c => 10 * n + (c.toNat - 48)) 0)
  else none

/-- Model of `NaiveDate::parse_from_str(s, "%Y-%m-%d")` for non-negative
years: three dash-separated digit groups (at most 4/2/2 digits, the whole
string consumed) forming a real calendar date; anything else is a parse
error. -/
def parse_date (s : String) : Option Date :=
  match split_dash s.data with
  | [ys, ms, ds] =>
    match digits_to_nat? ys, digits_to_nat? ms, digits_to_nat? ds with
    | some y, some m, some d =>
      if ys.length ≤ 4 ∧ ms.length ≤ 2 ∧ ds.length ≤ 2 ∧
          Date.is_valid ⟨y, m, d⟩ then
        some ⟨y, m, d⟩
      else none
    | _, _, _ => none
  | _ => none

/-- Model of `UserProfile` restricted to the single field the log summary
reads (src/user_profile.rs: `target_calorie`). -/
structure UserProfile where
  target_calorie : ℚ
deriving DecidableEq, Repr

/-- Model of `FoodLog` restricted to the state the summary and
per-date-total functions read: the date-keyed map of daily logs
(`HashMap<String, DailyLog>` modelled as an association list with unique
keys looked up by `find?`). -/
structure FoodLog where
  daily_logs : List (String × DailyLog)
deriving DecidableEq, Repr

/-- Model of `FoodLog::calculate_calories_for_date`: the day's total
calories, or `0` when the date has no log. -/
def FoodLog.calculate_calories_for_date (fl : FoodLog) (date : String) : ℚ :=
  match fl.daily_logs.find? (fun p => p.1 == date) with
  | some p => p.2.calculate_total_calories
  | none => 0

/-- Errors raised by `get_calorie_summary` (both are
`io::ErrorKind::InvalidInput` in the source, distinguished by message:
"Invalid date format. Use YYYY-MM-DD." and "Start date cannot be after
end date"; the spec calls them `InvalidDate` and `InvalidRange`). -/
inductive SummaryError where
  | invalidDate
  | invalidRange
deriving DecidableEq, Repr

/-- The summary tuple per date produced by `get_calorie_summary`:
`(date string, actual, target, actual - target)`. -/
def summary_tuple (fl : FoodLog) (target : ℚ) (d : Date) :
    String × ℚ × ℚ × ℚ :=
  (d.format, fl.calculate_calories_for_date d.format, target,
    fl.calculate_calories_for_date d.format - target)

/-- Fuel-indexed model of the `while current <= end` walk of
`get_calorie_summary`; the loop guard is checked each iteration and the
fuel (always instantiated with `rank end + 1 - rank start`, which the
completeness lemmas show is enough) only bounds the iteration count. -/
def summary_loop (fl : FoodLog) (target : ℚ) :
    Nat → Date → Date → List (String × ℚ × ℚ × ℚ)
  | 0, _, _ => []
  | fuel + 1, current, end_ =>
    if current ≤ end_ then
      summary_tuple fl target current ::
        summary_loop fl target fuel current.succ end_
    else []

/-- Fuel-indexed enumeration of the calendar dates visited by the walk
(`summary_loop` maps `summary_tuple` over exactly this list). -/
def dates_from_to : Nat → Date → Date → List Date
  | 0, _, _ => []
  | fuel + 1, current, end_ =>
    if current ≤ end_ then current :: dates_from_to fuel current.succ end_
    else []

/-- Model of `get_calorie_summary` (src/food_log.rs lines 311-353):
validate both bounds, reject `start > end`, then walk each calendar date
inclusively, pairing each date with its actual calories, the target and
their difference. -/
def get_calorie_summary (fl : FoodLog) (start_date end_date : String)
    (profile : UserProfile) :
    Except SummaryError (List (String × ℚ × ℚ × ℚ)) :=
  match parse_date start_date, parse_date end_date with
  | some start, some end_ =>
    if start > end_ then Except.error SummaryError.invalidRange
    else
      Except.ok (summary_loop fl profile.target_calorie
        (end_.rank + 1 - start.rank) start end_)
  | _, _ => Except.error SummaryError.invalidDate

/-- Whether some entry of the list carries the given food identifier
(Rust `entries.iter().any(|e| e.food_id == x)` shape, used to state
presence). -/
def present (x : String) (entries : List LogEntry) : Bool :=
  entries.any (fun e => e.food_id == x)

/-- One mutation step of a `DailyLog`: `add_entry` with positive servings
(the data-model precondition `servings > 0`), `remove_entry` with any
identifier, or `undo`; for the fallible operations the step moves to the
post-call state whether or not the call reported an error. -/
inductive LogStep : DailyLog → DailyLog → Prop
  | add_entry (log : DailyLog) (food : BasicFood) (servings : ℚ)
      (h : 0 < servings) : LogStep log (log.add_entry food servings)
  | remove_entry (log : DailyLog) (food_id : String) :
      LogStep log (log.remove_entry food_id).2
  | undo (log : DailyLog) : LogStep log log.undo.2

/-- States of a `DailyLog` reachable from a fresh empty log by any
sequence of `add_entry` / `remove_entry` / `undo` calls. -/
inductive LogReachable : DailyLog → Prop
  | new (date : String) : LogReachable (DailyLog.new date)
  | step {log log' : DailyLog} :
      LogReachable log → LogStep log log' → LogReachable log'

/-- Invariant relating the undo actions concerning one food identifier
`x` (read from the stack top down) to whether `x` is currently present:
an `Add(x, prev)` on top was pushed while `x` was present, with `prev`
the positive pre-merge servings or `0` for a fresh entry (absent before);
a `Remove(e)` with `e.food_id = x` on top was pushed when `x` became
absent, carries positive servings, and had `x` present before; actions
about other identifiers are skipped. -/
def good_stack (x : String) : List UndoAction → Bool → Prop
  | [], _ => True
  | UndoAction.add fid p :: rest, b =>
    if fid = x then
      b = true ∧
        ((0 < p ∧ good_stack x rest true) ∨ (p = 0 ∧ good_stack x rest false))
    else good_stack x rest b
  | UndoAction.remove e :: rest, b =>
    if e.food_id = x then
      b = false ∧ 0 < e.servings ∧ good_stack x rest true
    else good_stack x rest b

/-- Well-formedness invariant of a `DailyLog`: entries are unique by food
identifier, all servings are positive, and the undo stack is consistent
with the entries for every food identifier. -/
def log_wf (log : DailyLog) : Prop :=
  (log.entries.map LogEntry.food_id).Nodup ∧
    (∀ e ∈ log.entries, 0 < e.servings) ∧
    (∀ x, good_stack x log.undo_stack (present x log.entries))

/-- Catalog holding atomic `apple` (95 kcal/serving) and `peanut_butter`
(190 kcal/serving), built through `add_basic_food`. -/
def fruit_db : FoodDatabase :=
  ((FoodDatabase.new.add_basic_food "apple" ["fruit"] 95).2.add_basic_food
    "peanut_butter" ["protein"] 190).2

/-- Catalog additionally holding the composite `snack` = apple×1 +
peanut_butter×2, built through `add_composite_food`. -/
def snack_db : FoodDatabase :=
  (fruit_db.add_composite_food "snack" ["snack"]
    [("apple", 1), ("peanut_butter", 2)]).2

/-! ### Helper lemmas about entry lists -/

theorem find?_food_eq_none_iff (x : String) (l : List LogEntry) :
    l.find? (fun e => e.food_id == x) = none ↔ ∀ e ∈ l, e.food_id ≠ x := by
  simp [List.find?_eq_none]

theorem present_eq_true_iff (x : String) (l : List LogEntry) :
    present x l = true ↔ ∃ e ∈ l, e.food_id = x := by
  simp [present, List.any_eq_true]

theorem present_eq_false_iff (x : String) (l : List LogEntry) :
    present x l = false ↔ ∀ e ∈ l, e.food_id ≠ x := by
  simp [present, List.any_eq_false]

theorem find?_append_some_right {α : Type} (p : α → Bool) (l : List α)
    (e : α) (h : l.find? p = none) (he : p e = true) :
    (l ++ [e]).find? p = some e := by
  induction l with
  | nil => simp [List.find?, he]
  | cons a as ih =>
    have ha : ¬ p a = true := List.find?_eq_none.1 h a (by simp)
    have has : as.find? p = none :=
      List.find?_eq_none.2 fun x hx => List.find?_eq_none.1 h x (by simp [hx])
    simpa [List.find?, Bool.eq_false_iff.2 ha] using ih has

theorem eraseP_append_of_none {α : Type} (p : α → Bool) (l : List α)
    (e : α) (h : l.find? p = none) (he : p e = true) :
    (l ++ [e]).eraseP p = l := by
  induction l with
  | nil => simp [List.eraseP, he]
  | cons a as ih =>
    have ha : ¬ p a = true := List.find?_eq_none.1 h a (by simp)
    have has : as.find? p = none :=
      List.find?_eq_none.2 fun x hx => List.find?_eq_none.1 h x (by simp [hx])
    simp [List.eraseP_cons, Bool.eq_false_iff.2 ha, ih has]

theorem set_first_set_first (p : LogEntry → Bool) (f g : LogEntry → LogEntry)
    (hf : ∀ a, p (f a) = p a) (l : List LogEntry) :
    set_first p g (set_first p f l) = set_first p (fun a => g (f a)) l := by
  induction l with
  | nil => rfl
  | cons a as ih =>
    by_cases h : p a = true
    · simp [set_first, h, hf a]
    · have h' : p a = false := Bool.eq_false_iff.2 h
      simp [set_first, h', ih]

theorem set_first_restore (p : LogEntry → Bool) (l : List LogEntry)
    (e : LogEntry) (h : l.find? p = some e) :
    set_first p (fun a => { a with servings := e.servings }) l = l := by
  induction l with
  | nil => simp [List.find?] at h
  | cons a as ih =>
    cases hpa : p a with
    | true =>
      rw [List.find?_cons_of_pos _ hpa, Option.some_inj] at h
      subst h
      cases a with
      | mk fid sv cal => simp [set_first, hpa]
    | false =>
      rw [List.find?_cons_of_neg _ (by simp [hpa])] at h
      simp [set_first, hpa, ih h]

theorem find?_set_first (p : LogEntry → Bool) (f : LogEntry → LogEntry)
    (hf : ∀ a, p (f a) = p a) (l : List LogEntry) (e : LogEntry)
    (h : l.find? p = some e) :
    (set_first p f l).find? p = some (f e) := by
  induction l with
  | nil => simp [List.find?] at h
  | cons a as ih =>
    cases hpa : p a with
    | true =>
      rw [List.find?_cons_of_pos _ hpa, Option.some_inj] at h
      subst h
      simp [set_first, hpa, List.find?_cons_of_pos _ ((hf a).trans hpa)]
    | false =>
      rw [List.find?_cons_of_neg _ (by simp [hpa])] at h
      unfold set_first
      rw [if_neg (by simp [hpa]), List.find?_cons_of_neg _ (by simp [hpa])]
      exact ih h

/-! ### Claim theorems: daily log operations -/

/-- C1: for every composite food, `get_calories` is the sum over its
flattened atomic-only component list of calories-per-serving times
quantity; in particular the composite `snack` built from `apple` (95)
with quantity 1 and `peanut_butter` (190) with quantity 2 has
`get_calories = 475`. -/
theorem claim_C1 :
    (∀ cf : CompositeFood,
      cf.get_calories =
        (cf.components.map (fun p => p.1.calories_per_serving * p.2)).sum) ∧
    (snack_db.get_composite_food "snack").map CompositeFood.get_calories =
      some 475 := by
  constructor
  · intro cf
    rfl
  · have h : snack_db.get_composite_food "snack" =
        some ⟨"snack", ["snack"],
          [(⟨"apple", ["fruit"], 95⟩, 1), (⟨"peanut_butter", ["protein"], 190⟩, 2)]⟩ :=
      rfl
    rw [h, Option.map_some']
    rw [Option.some_inj]
    show (95 : ℚ) * 1 + (190 * 2 + 0) = 475
    norm_num

/-- C10: popping an `Add(id, 0)` undo action while no entry with that
food identifier exists returns the `InconsistentState` error with the
action already removed from the undo stack (the failed undo is not
atomic: the stack is one element shorter and the action cannot be
retried). -/
theorem claim_C10 (log : DailyLog) (id : String) (rest : List UndoAction)
    (hstack : log.undo_stack = UndoAction.add id 0 :: rest)
    (habsent : ∀ e ∈ log.entries, e.food_id ≠ id) :
    log.undo =
      (Except.error LogError.inconsistentState,
        { log with undo_stack := rest }) := by
  obtain ⟨d, es, st⟩ := log
  simp only at hstack habsent
  subst hstack
  have hfind : es.find? (fun e => e.food_id == id) = none :=
    (find?_food_eq_none_iff id es).2 habsent
  simp [DailyLog.undo, hfind]

theorem claim_C10_witness :
    DailyLog.undo ⟨"2024-01-01", [], [UndoAction.add "apple" 0]⟩ =
      (Except.error LogError.inconsistentState, ⟨"2024-01-01", [], []⟩) :=
  claim_C10 ⟨"2024-01-01", [], [UndoAction.add "apple" 0]⟩ "apple" [] rfl
    (by simp)

/-- C4: when an entry with the given identifier exists, `remove_entry`
succeeds (removing the first matching entry and pushing it on the undo
stack) and a subsequent `undo` re-appends that exact entry — original
servings and calorie rate — at the end of the entry list, leaving the
untouched entries in their relative order; when no entry matches,
`remove_entry` fails with `NotFound` and the log is unchanged. -/
theorem claim_C4 (log : DailyLog) (id : String) :
    (∀ e, log.entries.find? (fun x => x.food_id == id) = some e →
      log.remove_entry id =
        (Except.ok (),
          { log with
            entries := log.entries.eraseP (fun x => x.food_id == id),
            undo_stack := UndoAction.remove e :: log.undo_stack }) ∧
      (log.remove_entry id).2.undo =
        (Except.ok (),
          { log with
            entries :=
              log.entries.eraseP (fun x => x.food_id == id) ++ [e] })) ∧
    (log.entries.find? (fun x => x.food_id == id) = none →
      log.remove_entry id = (Except.error LogError.notFound, log)) := by
  obtain ⟨d, es, st⟩ := log
  constructor
  · intro e hfind
    constructor
    · simp [DailyLog.remove_entry, hfind]
    · simp [DailyLog.remove_entry, hfind, DailyLog.undo]
  · intro hfind
    simp [DailyLog.remove_entry, hfind]

theorem claim_C4_witness :
    (DailyLog.remove_entry ⟨"2024-01-01", [⟨"apple", 2, 95⟩], []⟩ "apple" =
      (Except.ok (),
        ⟨"2024-01-01", [], [UndoAction.remove ⟨"apple", 2, 95⟩]⟩)) ∧
    ((DailyLog.remove_entry ⟨"2024-01-01", [⟨"apple", 2, 95⟩], []⟩
        "apple").2.undo =
      (Except.ok (), ⟨"2024-01-01", [⟨"apple", 2, 95⟩], []⟩)) := by
  have h := (claim_C4 ⟨"2024-01-01", [⟨"apple", 2, 95⟩], []⟩ "apple").1
    ⟨"apple", 2, 95⟩ (by decide)
  exact ⟨h.1, h.2⟩

/-- C3: on a well-formed log (positive servings), `add_entry` with
positive servings followed immediately by `undo` restores the log to
exactly its pre-add state, in both the new-entry case (the appended
entry is deleted) and the merge case (the previous servings value is
written back). -/
theorem claim_C3 (log : DailyLog) (food : BasicFood) (servings : ℚ)
    (_hs : 0 < servings) (hwf : ∀ e ∈ log.entries, 0 < e.servings) :
    (log.add_entry food servings).undo = (Except.ok (), log) := by
  obtain ⟨d, es, st⟩ := log
  simp only at hwf
  cases hfind : es.find? (fun e => e.food_id == food.identifier) with
  | none =>
    have hnew : (fun e => e.food_id == food.identifier)
        (⟨food.identifier, servings, food.calories_per_serving⟩ : LogEntry) =
          true := by simp
    have hfind2 := find?_append_some_right _ es _ hfind hnew
    have herase := eraseP_append_of_none _ es _ hfind hnew
    simp [DailyLog.add_entry, hfind, DailyLog.undo, hfind2, herase]
  | some e =>
    have hmem := List.mem_of_find?_eq_some hfind
    have hpos : 0 < e.servings := hwf e hmem
    have hpres : ∀ a : LogEntry,
        (fun x => x.food_id == food.identifier)
          ({ a with servings := a.servings + servings }) =
        (fun x => x.food_id == food.identifier) a := fun a => rfl
    have hfind2 := find?_set_first _ _ hpres es e hfind
    have hcomp := set_first_set_first (fun x => x.food_id == food.identifier)
      (fun a => { a with servings := a.servings + servings })
      (fun a => { a with servings := e.servings }) hpres es
    have hfun : (fun a : LogEntry =>
        ({ ({ a with servings := a.servings + servings } : LogEntry) with
          servings := e.servings } : LogEntry)) =
        (fun a : LogEntry => { a with servings := e.servings }) := by
      funext a
      cases a
      rfl
    simp [DailyLog.add_entry, hfind, DailyLog.undo, hfind2, hpos, hcomp, hfun,
      set_first_restore _ es e hfind]

theorem claim_C3_witness :
    (DailyLog.add_entry ⟨"2024-01-01", [⟨"apple", 1, 95⟩], []⟩
        ⟨"apple", ["fruit"], 95⟩ 2).undo =
      (Except.ok (), ⟨"2024-01-01", [⟨"apple", 1, 95⟩], []⟩) :=
  claim_C3 ⟨"2024-01-01", [⟨"apple", 1, 95⟩], []⟩ ⟨"apple", ["fruit"], 95⟩ 2
    (by norm_num) (by simp)

/-! ### Claim theorems: food catalog operations -/

theorem find?_none_iff_any_false {α : Type} (p : α → Bool) (l : List α) :
    l.find? p = none ↔ l.any p = false := by
  simp [List.find?_eq_none, List.any_eq_false]

theorem build_components_ok (db : FoodDatabase) (refs : List (String × ℚ))
    (h : ∀ r ∈ refs, db.resolvable r.1 = true) :
    db.build_components refs =
      Except.ok (refs.map db.resolve_ref).flatten := by
  induction refs with
  | nil => rfl
  | cons r rest ih =>
    obtain ⟨fid, q⟩ := r
    have hr : db.resolvable fid = true := h (fid, q) (by simp)
    have hrest := ih fun x hx => h x (by simp [hx])
    cases hb : db.basic_foods.find? (fun bf => bf.identifier == fid) with
    | some bf =>
      simp [FoodDatabase.build_components, hb, hrest, FoodDatabase.resolve_ref]
    | none =>
      cases hc : db.composite_foods.find? (fun cf => cf.identifier == fid) with
      | some cf =>
        simp [FoodDatabase.build_components, hb, hc, hrest,
          FoodDatabase.resolve_ref]
      | none =>
        exfalso
        have h1 := (find?_none_iff_any_false _ _).1 hb
        have h2 := (find?_none_iff_any_false _ _).1 hc
        simp [FoodDatabase.resolvable, h1, h2] at hr

theorem build_components_err (db : FoodDatabase) (refs : List (String × ℚ))
    (h : ∃ r ∈ refs, db.resolvable r.1 = false) :
    ∃ fid, (∃ r ∈ refs, r.1 = fid) ∧ db.resolvable fid = false ∧
      db.build_components refs =
        Except.error (FoodError.componentNotFound fid) := by
  induction refs with
  | nil => simp at h
  | cons r rest ih =>
    obtain ⟨fid, q⟩ := r
    cases hr : db.resolvable fid with
    | false =>
      have hb : db.basic_foods.find? (fun bf => bf.identifier == fid) = none := by
        rw [find?_none_iff_any_false]
        simpa [FoodDatabase.resolvable] using And.left (by simpa [FoodDatabase.resolvable] using hr)
      have hc : db.composite_foods.find? (fun cf => cf.identifier == fid) = none := by
        rw [find?_none_iff_any_false]
        simpa [FoodDatabase.resolvable] using And.right (by simpa [FoodDatabase.resolvable] using hr)
      refine ⟨fid, ⟨(fid, q), by simp⟩, hr, ?_⟩
      simp [FoodDatabase.build_components, hb, hc]
    | true =>
      have hrest : ∃ x ∈ rest, db.resolvable x.1 = false := by
        obtain ⟨x, hx, hxf⟩ := h
        rcases List.mem_cons.1 hx with hx1 | hx2
        · subst hx1
          simp [hr] at hxf
        · exact ⟨x, hx2, hxf⟩
      obtain ⟨f, hfmem, hfres, heq⟩ := ih hrest
      refine ⟨f, ?_, hfres, ?_⟩
      · obtain ⟨x, hx, hxe⟩ := hfmem
        exact ⟨x, by simp [hx], hxe⟩
      · cases hb : db.basic_foods.find? (fun bf => bf.identifier == fid) with
        | some bf => simp [FoodDatabase.build_components, hb, heq]
        | none =>
          cases hc : db.composite_foods.find?
              (fun cf => cf.identifier == fid) with
          | some cf => simp [FoodDatabase.build_components, hb, hc, heq]
          | none =>
            exfalso
            have h1 := (find?_none_iff_any_false _ _).1 hb
            have h2 := (find?_none_iff_any_false _ _).1 hc
            simp [FoodDatabase.resolvable, h1, h2] at hr

/-- C2: when the new identifier is fresh among composites,
`add_composite_food` processes the references in order — an atomic hit
contributes its `(food, quantity)` pair, a composite hit contributes all
of its already-flattened components with quantities scaled by
`componentQty * quantity`, duplicates are kept unmerged in insertion
order — and appends the resulting atomic-only composite; if any
reference names neither an atomic nor a composite food, the call fails
with `ComponentNotFound` for such a reference and the catalog is
unchanged. -/
theorem claim_C2 (db : FoodDatabase) (id : String) (kw : List String)
    (refs : List (String × ℚ))
    (hfresh : ∀ cf ∈ db.composite_foods, cf.identifier ≠ id) :
    ((∀ r ∈ refs, db.resolvable r.1 = true) →
      db.add_composite_food id kw refs =
        (Except.ok (),
          { db with composite_foods := db.composite_foods ++
              [⟨id, kw, (refs.map db.resolve_ref).flatten⟩] })) ∧
    ((∃ r ∈ refs, db.resolvable r.1 = false) →
      ∃ fid, (∃ r ∈ refs, r.1 = fid) ∧ db.resolvable fid = false ∧
        db.add_composite_food id kw refs =
          (Except.error (FoodError.componentNotFound fid), db)) := by
  have hdup : db.composite_foods.any (fun f => f.identifier == id) = false := by
    rw [List.any_eq_false]
    intro cf hcf
    simp [hfresh cf hcf]
  constructor
  · intro hall
    simp [FoodDatabase.add_composite_food, hdup, build_components_ok db refs hall]
  · intro hsome
    obtain ⟨fid, hfmem, hfres, heq⟩ := build_components_err db refs hsome
    exact ⟨fid, hfmem, hfres, by
      simp [FoodDatabase.add_composite_food, hdup, heq]⟩

theorem claim_C2_witness :
    fruit_db.add_composite_food "snack" ["snack"]
        [("apple", 1), ("peanut_butter", 2)] =
      (Except.ok (),
        { fruit_db with composite_foods := fruit_db.composite_foods ++
            [⟨"snack", ["snack"],
              (([("apple", (1 : ℚ)), ("peanut_butter", 2)].map
                fruit_db.resolve_ref)).flatten⟩] }) :=
  (claim_C2 fruit_db "snack" ["snack"] [("apple", 1), ("peanut_butter", 2)]
    (by intro cf hcf; simp [fruit_db, FoodDatabase.new,
      FoodDatabase.add_basic_food] at hcf)).1
    (by intro r hr; fin_cases hr <;> rfl)

/-- C7 as stated is false: `add_basic_food` checks only the *basic* foods
for an identifier collision, so an identifier already used by a composite
food is accepted; here `snack` names a stored composite, yet adding an
atomic food called `snack` succeeds. -/
theorem claim_C7_counterexample :
    snack_db.composite_foods.any (fun f => f.identifier == "snack") = true ∧
    (snack_db.add_basic_food "snack" [] 50).1 = Except.ok () := by
  constructor
  · rfl
  · rfl

/-- C7 (amended): `add_basic_food` fails with `DuplicateIdentifier`
exactly when the identifier is already used by an existing *atomic* food
(composite identifiers are not consulted); otherwise it appends the new
atomic food and succeeds. -/
theorem claim_C7_amended (db : FoodDatabase) (id : String)
    (kw : List String) (c : ℚ) :
    (db.basic_foods.any (fun f => f.identifier == id) = true →
      db.add_basic_food id kw c =
        (Except.error FoodError.duplicateIdentifier, db)) ∧
    (db.basic_foods.any (fun f => f.identifier == id) = false →
      db.add_basic_food id kw c =
        (Except.ok (), { db with basic_foods := db.basic_foods ++ [⟨id, kw, c⟩] })) := by
  constructor
  · intro h
    simp [FoodDatabase.add_basic_food, h]
  · intro h
    simp [FoodDatabase.add_basic_food, h]

theorem claim_C7_amended_witness :
    (FoodDatabase.add_basic_food ⟨[⟨"apple", [], 95⟩], []⟩ "apple" [] 50 =
      (Except.error FoodError.duplicateIdentifier, ⟨[⟨"apple", [], 95⟩], []⟩)) ∧
    (FoodDatabase.add_basic_food ⟨[⟨"apple", [], 95⟩], []⟩ "pear" [] 60 =
      (Except.ok (), ⟨[⟨"apple", [], 95⟩, ⟨"pear", [], 60⟩], []⟩)) :=
  ⟨(claim_C7_amended ⟨[⟨"apple", [], 95⟩], []⟩ "apple" [] 50).1 rfl,
    (claim_C7_amended ⟨[⟨"apple", [], 95⟩], []⟩ "pear" [] 60).2 rfl⟩

/-- C9: building composite `C` whose single component references the
stored composite `B` (whose identifier names no atomic food) with
quantity `q` stores for `C` exactly `B`'s flattened component list with
every quantity multiplied by `q`. -/
theorem claim_C9 (db : FoodDatabase) (bId cId : String) (kwC : List String)
    (q : ℚ) (B : CompositeFood)
    (hB : db.get_composite_food bId = some B)
    (hnotbasic : db.basic_foods.find? (fun bf => bf.identifier == bId) = none)
    (hfresh : ∀ cf ∈ db.composite_foods, cf.identifier ≠ cId) :
    db.add_composite_food cId kwC [(bId, q)] =
      (Except.ok (),
        { db with composite_foods := db.composite_foods ++
            [⟨cId, kwC, B.components.map (fun p => (p.1, p.2 * q))⟩] }) ∧
    (db.add_composite_food cId kwC [(bId, q)]).2.get_composite_food cId =
      some ⟨cId, kwC, B.components.map (fun p => (p.1, p.2 * q))⟩ := by
  have hdup : db.composite_foods.any (fun f => f.identifier == cId) = false := by
    rw [List.any_eq_false]
    intro cf hcf
    simp [hfresh cf hcf]
  have hBfind : db.composite_foods.find? (fun cf => cf.identifier == bId) =
      some B := hB
  have hmain : db.add_composite_food cId kwC [(bId, q)] =
      (Except.ok (),
        { db with composite_foods := db.composite_foods ++
            [⟨cId, kwC, B.components.map (fun p => (p.1, p.2 * q))⟩] }) := by
    simp [FoodDatabase.add_composite_food, hdup,
      FoodDatabase.build_components, hnotbasic, hBfind]
  refine ⟨hmain, ?_⟩
  rw [hmain]
  simp only [FoodDatabase.get_composite_food]
  exact find?_append_some_right (fun cf => cf.identifier == cId)
    db.composite_foods
    (⟨cId, kwC, B.components.map (fun p => (p.1, p.2 * q))⟩ : CompositeFood)
    ((find?_none_iff_any_false _ _).2 hdup) (by simp)

theorem claim_C9_witness :
    snack_db.add_composite_food "double_snack" [] [("snack", 2)] =
      (Except.ok (),
        { snack_db with composite_foods := snack_db.composite_foods ++
            [⟨"double_snack", [],
              [(⟨"apple", ["fruit"], 95⟩, 1 * 2),
                (⟨"peanut_butter", ["protein"], 190⟩, 2 * 2)]⟩] }) :=
  (claim_C9 snack_db "snack" "double_snack" [] 2
    (⟨"snack", ["snack"],
      [(⟨"apple", ["fruit"], 95⟩, 1),
        (⟨"peanut_butter", ["protein"], 190⟩, 2)]⟩ : CompositeFood)
    rfl rfl
    (by intro cf hcf
        have hcf' : cf = (⟨"snack", ["snack"],
            [(⟨"apple", ["fruit"], 95⟩, 1),
              (⟨"peanut_butter", ["protein"], 190⟩, 2)]⟩ : CompositeFood) := by
          simpa [snack_db, fruit_db, FoodDatabase.new,
            FoodDatabase.add_basic_food, FoodDatabase.add_composite_food,
            FoodDatabase.build_components] using hcf
        simp [hcf'])).1

/-! ### Claim theorems: loading persisted composite records -/

theorem any_true_exists_find? {α : Type} (p : α → Bool) (l : List α)
    (h : l.any p = true) : ∃ a, l.find? p = some a := by
  cases hf : l.find? p with
  | some a => exact ⟨a, rfl⟩
  | none =>
    rw [(find?_none_iff_any_false p l).1 hf] at h
    cases h

theorem build_components_all_basic (db : FoodDatabase)
    (comps : List FoodComponent)
    (h : ∀ c ∈ comps,
      db.basic_foods.any (fun bf => bf.identifier == c.food_id) = true) :
    db.build_components (comps.map (fun c => (c.food_id, c.quantity))) =
      Except.ok (comps.filterMap (fun c =>
        (db.basic_foods.find? (fun bf => bf.identifier == c.food_id)).map
          (fun bf => (bf, c.quantity)))) := by
  induction comps with
  | nil => rfl
  | cons c rest ih =>
    obtain ⟨bf, hbf⟩ :=
      any_true_exists_find? _ db.basic_foods (h c (by simp))
    have hrest := ih fun x hx => h x (by simp [hx])
    simp [FoodDatabase.build_components, hbf, hrest]

theorem add_composites_go (basics : List BasicFood)
    (acc : List CompositeFood) (records : List SerializedCompositeFood)
    (hbasic : ∀ sf ∈ records, ∀ c ∈ sf.components,
      basics.any (fun bf => bf.identifier == c.food_id) = true)
    (hdisj : ∀ sf ∈ records, ∀ cf ∈ acc, cf.identifier ≠ sf.identifier)
    (hnodup : (records.map SerializedCompositeFood.identifier).Nodup) :
    add_composites_in_order ⟨basics, acc⟩ records =
      Except.ok ⟨basics, acc ++ load_composite_foods basics records⟩ := by
  induction records generalizing acc with
  | nil => simp [add_composites_in_order, load_composite_foods]
  | cons sf rest ih =>
    have hdup : acc.any (fun f => f.identifier == sf.identifier) = false := by
      rw [List.any_eq_false]
      intro cf hcf
      simp [hdisj sf (by simp) cf hcf]
    have hbuild := build_components_all_basic ⟨basics, acc⟩ sf.components
      (hbasic sf (by simp))
    have hnodup' : (rest.map SerializedCompositeFood.identifier).Nodup :=
      (List.nodup_cons.1 (by simpa using hnodup)).2
    have hnotin : sf.identifier ∉ rest.map SerializedCompositeFood.identifier :=
      (List.nodup_cons.1 (by simpa using hnodup)).1
    have hdisj' : ∀ s ∈ rest, ∀ cf ∈ acc ++ [load_composite_record basics sf],
        cf.identifier ≠ s.identifier := by
      intro s hs cf hcf
      rcases List.mem_append.1 hcf with hcf1 | hcf2
      · exact hdisj s (by simp [hs]) cf hcf1
      · have hcfe : cf = load_composite_record basics sf := by simpa using hcf2
        subst hcfe
        show (load_composite_record basics sf).identifier ≠ s.identifier
        intro heq
        exact hnotin (by
          rw [show (load_composite_record basics sf).identifier =
            sf.identifier from rfl] at heq
          exact heq ▸ List.mem_map_of_mem SerializedCompositeFood.identifier hs)
    have hstep := ih (acc ++ [load_composite_record basics sf])
      (fun x hx => hbasic x (by simp [hx])) hdisj' hnodup'
    have hadd : FoodDatabase.add_composite_food ⟨basics, acc⟩ sf.identifier
        sf.keywords (sf.components.map (fun c => (c.food_id, c.quantity))) =
        (Except.ok (), ⟨basics, acc ++ [load_composite_record basics sf]⟩) := by
      simp [FoodDatabase.add_composite_food, hdup, hbuild, load_composite_record]
    show (match FoodDatabase.add_composite_food ⟨basics, acc⟩ sf.identifier
        sf.keywords (sf.components.map (fun c => (c.food_id, c.quantity))) with
      | (Except.ok _, db') => add_composites_in_order db' rest
      | (Except.error e, _) => Except.error e) = _
    rw [hadd]
    show add_composites_in_order ⟨basics, acc ++ [load_composite_record basics sf]⟩
      rest = _
    rw [hstep]
    simp [load_composite_foods]

/-- C8 as stated is false: `FoodDatabase::load` resolves the component
references of a persisted composite record against the *basic* foods
only and silently skips (with a printed warning) any component naming no
basic food; a record referencing a composite defined earlier in the file
therefore loses that component instead of being re-flattened the way
`add_composite_food` would flatten it. With atomic `a` and records
`B = [(a, 1)]`, `C = [(B, 2)]`, replaying `add_composite_food` gives `C`
the flattened components `[(a, 1*2)]` while `load` gives `C` no
components at all. -/
theorem claim_C8_counterexample :
    add_composites_in_order ⟨[⟨"a", [], 1⟩], []⟩
        [⟨"B", [], [⟨"a", 1⟩]⟩, ⟨"C", [], [⟨"B", 2⟩]⟩] =
      Except.ok ⟨[⟨"a", [], 1⟩],
        [⟨"B", [], [(⟨"a", [], 1⟩, 1)]⟩,
          ⟨"C", [], [(⟨"a", [], 1⟩, 1 * 2)]⟩]⟩ ∧
    load_composite_foods [⟨"a", [], 1⟩]
        [⟨"B", [], [⟨"a", 1⟩]⟩, ⟨"C", [], [⟨"B", 2⟩]⟩] =
      [⟨"B", [], [(⟨"a", [], 1⟩, 1)]⟩, ⟨"C", [], []⟩] ∧
    (⟨"C", [], []⟩ : CompositeFood) ≠
      ⟨"C", [], [(⟨"a", [], 1⟩, 1 * 2)]⟩ := by
  refine ⟨rfl, rfl, ?_⟩
  intro h
  cases h

/-- C8 (amended): `load` resolves each component reference against the
atomic foods only, skipping any component that names no atomic food —
including a reference to a composite defined earlier in the file, which
is *not* re-flattened; when every component of every record names an
atomic food (as holds for records produced by `save`, which persists
composites already flattened) and the record identifiers are distinct
and fresh, the loaded catalog equals the one obtained by calling
`add_composite_food` on each record in file order. -/
theorem claim_C8_amended (db : FoodDatabase)
    (records : List SerializedCompositeFood)
    (hempty : db.composite_foods = [])
    (hbasic : ∀ sf ∈ records, ∀ c ∈ sf.components,
      db.basic_foods.any (fun bf => bf.identifier == c.food_id) = true)
    (hnodup : (records.map SerializedCompositeFood.identifier).Nodup) :
    add_composites_in_order db records =
      Except.ok
        { db with composite_foods :=
            load_composite_foods db.basic_foods records } := by
  obtain ⟨basics, comps⟩ := db
  simp only at hempty hbasic
  subst hempty
  simpa using add_composites_go basics [] records hbasic (by simp) hnodup

theorem claim_C8_amended_witness :
    add_composites_in_order ⟨[⟨"a", [], 1⟩], []⟩ [⟨"B", [], [⟨"a", 1⟩]⟩] =
      Except.ok ⟨[⟨"a", [], 1⟩],
        load_composite_foods [⟨"a", [], 1⟩] [⟨"B", [], [⟨"a", 1⟩]⟩]⟩ :=
  claim_C8_amended ⟨[⟨"a", [], 1⟩], []⟩ [⟨"B", [], [⟨"a", 1⟩]⟩] rfl
    (by intro sf hsf c hc
        simp only [List.mem_singleton] at hsf
        subst hsf
        simp only [List.mem_singleton] at hc
        subst hc
        rfl)
    (by simp)

/-! ### Claim theorems: uniqueness invariant of the daily log -/

theorem present_append_ne (x : String) (l : List LogEntry) (e : LogEntry)
    (h : e.food_id ≠ x) : present x (l ++ [e]) = present x l := by
  simp [present, List.any_append, h]

theorem present_append_eq (x : String) (l : List LogEntry) (e : LogEntry)
    (h : e.food_id = x) : present x (l ++ [e]) = true := by
  simp [present, List.any_append, h]

theorem present_set_first (x : String) (p : LogEntry → Bool)
    (f : LogEntry → LogEntry) (hf : ∀ a, (f a).food_id = a.food_id)
    (l : List LogEntry) : present x (set_first p f l) = present x l := by
  induction l with
  | nil => rfl
  | cons a as ih =>
    by_cases hpa : p a = true
    · simp [set_first, hpa, present, hf a]
    · have hpa' : p a = false := Bool.eq_false_iff.2 hpa
      simp only [set_first, hpa', Bool.false_eq_true, if_false]
      simp [present] at ih ⊢
      rw [ih]

theorem map_food_id_set_first (p : LogEntry → Bool) (f : LogEntry → LogEntry)
    (hf : ∀ a, (f a).food_id = a.food_id) (l : List LogEntry) :
    (set_first p f l).map LogEntry.food_id = l.map LogEntry.food_id := by
  induction l with
  | nil => rfl
  | cons a as ih =>
    by_cases hpa : p a = true
    · simp [set_first, hpa, hf a]
    · have hpa' : p a = false := Bool.eq_false_iff.2 hpa
      simp [set_first, hpa', ih]

theorem mem_set_first (p : LogEntry → Bool) (f : LogEntry → LogEntry)
    (l : List LogEntry) (b : LogEntry) (hb : b ∈ set_first p f l) :
    b ∈ l ∨ ∃ a ∈ l, b = f a := by
  induction l with
  | nil => simp [set_first] at hb
  | cons a as ih =>
    by_cases hpa : p a = true
    · simp only [set_first, hpa, if_true] at hb
      rcases List.mem_cons.1 hb with hb1 | hb2
      · exact Or.inr ⟨a, by simp, hb1⟩
      · exact Or.inl (by simp [hb2])
    · have hpa' : p a = false := Bool.eq_false_iff.2 hpa
      simp only [set_first, hpa', Bool.false_eq_true, if_false] at hb
      rcases List.mem_cons.1 hb with hb1 | hb2
      · exact Or.inl (by simp [hb1])
      · rcases ih hb2 with h1 | ⟨c, hc, he⟩
        · exact Or.inl (by simp [h1])
        · exact Or.inr ⟨c, by simp [hc], he⟩

theorem present_eraseP_ne (x y : String) (l : List LogEntry) (h : x ≠ y) :
    present x (l.eraseP (fun e => e.food_id == y)) = present x l := by
  induction l with
  | nil => rfl
  | cons a as ih =>
    by_cases hay : a.food_id = y
    · have hax : a.food_id ≠ x := fun hh => h (hh ▸ hay)
      have hcond : (a.food_id == y) = true := by simp [hay]
      rw [List.eraseP_cons, hcond]
      simp only [cond_true]
      simp [present, hax]
    · have hcond : (a.food_id == y) = false := by simp [hay]
      rw [List.eraseP_cons, hcond]
      simp only [cond_false]
      simp only [present, List.any_cons] at ih ⊢
      rw [ih]

theorem present_false_iff_not_mem_map (x : String) (l : List LogEntry) :
    present x l = false ↔ x ∉ l.map LogEntry.food_id := by
  rw [present_eq_false_iff]
  constructor
  · intro h hmem
    rw [List.mem_map] at hmem
    obtain ⟨e, he, hfe⟩ := hmem
    exact h e he hfe
  · intro h e he hfe
    exact h (List.mem_map.2 ⟨e, he, hfe⟩)

theorem present_eraseP_self (x : String) (l : List LogEntry)
    (hnodup : (l.map LogEntry.food_id).Nodup) :
    present x (l.eraseP (fun e => e.food_id == x)) = false := by
  induction l with
  | nil => rfl
  | cons a as ih =>
    rw [List.map_cons, List.nodup_cons] at hnodup
    by_cases hax : a.food_id = x
    · have hcond : (a.food_id == x) = true := by simp [hax]
      simp only [List.eraseP_cons, hcond, cond_true]
      rw [present_false_iff_not_mem_map, ← hax]
      exact hnodup.1
    · have hcond : (a.food_id == x) = false := by simp [hax]
      simp only [List.eraseP_cons, hcond, cond_false]
      simp only [present, List.any_cons, hcond, Bool.false_or]
      have := ih hnodup.2
      simpa [present] using this

theorem present_true_of_find? (x : String) (l : List LogEntry) (e : LogEntry)
    (h : l.find? (fun a => a.food_id == x) = some e) : present x l = true := by
  rw [present_eq_true_iff]
  exact ⟨e, List.mem_of_find?_eq_some h,
    by simpa using List.find?_some h⟩

theorem exists_find?_of_present (x : String) (l : List LogEntry)
    (h : present x l = true) :
    ∃ e, l.find? (fun a => a.food_id == x) = some e :=
  any_true_exists_find? _ l (by simpa [present] using h)

theorem log_wf_add (log : DailyLog) (food : BasicFood) (servings : ℚ)
    (hpos : 0 < servings) (h : log_wf log) :
    log_wf (log.add_entry food servings) := by
  obtain ⟨hnodup, hposall, hgood⟩ := h
  cases hfind : log.entries.find? (fun e => e.food_id == food.identifier) with
  | none =>
    have habs : present food.identifier log.entries = false := by
      rw [present_eq_false_iff]
      exact (find?_food_eq_none_iff _ _).1 hfind
    refine ⟨?_, ?_, ?_⟩ <;> simp only [DailyLog.add_entry, hfind]
    · simp only [List.map_append, List.map_cons, List.map_nil]
      rw [List.nodup_append]
      refine ⟨hnodup, by simp, ?_⟩
      intro a ha hb
      simp only [List.mem_singleton] at hb
      subst hb
      exact (present_false_iff_not_mem_map _ _).1 habs ha
    · intro e he
      rcases List.mem_append.1 he with h1 | h2
      · exact hposall e h1
      · simp only [List.mem_singleton] at h2
        subst h2
        exact hpos
    · intro x
      by_cases hx : food.identifier = x
      · subst hx
        rw [present_append_eq food.identifier log.entries
          ⟨food.identifier, servings, food.calories_per_serving⟩ rfl]
        simp only [good_stack, if_pos rfl]
        exact ⟨by trivial,
          Or.inr ⟨by trivial, by rw [← habs]; exact hgood food.identifier⟩⟩
      · rw [present_append_ne x log.entries
          ⟨food.identifier, servings, food.calories_per_serving⟩ hx]
        simp only [good_stack, if_neg hx]
        exact hgood x
  | some e =>
    have hmem := List.mem_of_find?_eq_some hfind
    have heid : e.food_id = food.identifier := by
      simpa using List.find?_some hfind
    have hpres : present food.identifier log.entries = true :=
      present_true_of_find? _ _ _ hfind
    have hfpres : ∀ a : LogEntry,
        (({ a with servings := a.servings + servings } : LogEntry)).food_id =
          a.food_id := fun a => rfl
    refine ⟨?_, ?_, ?_⟩ <;> simp only [DailyLog.add_entry, hfind]
    · rw [map_food_id_set_first _ _ hfpres]
      exact hnodup
    · intro b hb
      rcases mem_set_first _ _ _ b hb with h1 | ⟨a, ha, hba⟩
      · exact hposall b h1
      · subst hba
        have := hposall a ha
        show 0 < a.servings + servings
        positivity
    · intro x
      rw [present_set_first x _ _ hfpres]
      by_cases hx : food.identifier = x
      · subst hx
        rw [hpres]
        simp only [good_stack, if_pos rfl]
        exact ⟨by trivial,
          Or.inl ⟨hposall e hmem, by rw [← hpres]; exact hgood _⟩⟩
      · simp only [good_stack, if_neg hx]
        exact hgood x

theorem log_wf_remove (log : DailyLog) (food_id : String) (h : log_wf log) :
    log_wf (log.remove_entry food_id).2 := by
  obtain ⟨hnodup, hposall, hgood⟩ := h
  cases hfind : log.entries.find? (fun e => e.food_id == food_id) with
  | none =>
    simp only [DailyLog.remove_entry, hfind]
    exact ⟨hnodup, hposall, hgood⟩
  | some e =>
    have hmem := List.mem_of_find?_eq_some hfind
    have heid : e.food_id = food_id := by simpa using List.find?_some hfind
    have hpres : present food_id log.entries = true :=
      present_true_of_find? _ _ _ hfind
    refine ⟨?_, ?_, ?_⟩ <;> simp only [DailyLog.remove_entry, hfind]
    · exact hnodup.sublist ((List.eraseP_sublist _).map LogEntry.food_id)
    · intro b hb
      exact hposall b (List.mem_of_mem_eraseP hb)
    · intro x
      by_cases hx : food_id = x
      · subst hx
        rw [present_eraseP_self _ _ hnodup]
        simp only [good_stack, if_pos heid]
        exact ⟨by trivial, hposall e hmem, by rw [← hpres]; exact hgood _⟩
      · rw [present_eraseP_ne _ _ _ (fun hh => hx hh.symm)]
        simp only [good_stack, heid, if_neg (fun hh : food_id = x => hx hh)]
        exact hgood x

theorem log_wf_undo (log : DailyLog) (h : log_wf log) : log_wf log.undo.2 := by
  obtain ⟨hnodup, hposall, hgood⟩ := h
  cases hstack : log.undo_stack with
  | nil =>
    simp only [DailyLog.undo, hstack]
    exact ⟨hnodup, hposall, hgood⟩
  | cons act rest =>
    cases act with
    | add fid prev =>
      have hg := hgood fid
      rw [hstack] at hg
      simp only [good_stack, if_pos rfl] at hg
      obtain ⟨hpres, hdisj⟩ := hg
      obtain ⟨e, hfind⟩ := exists_find?_of_present fid log.entries hpres
      by_cases hprev : 0 < prev
      · have hrest : good_stack fid rest true := by
          rcases hdisj with ⟨_, hr⟩ | ⟨hz, _⟩
          · exact hr
          · exact absurd hz (by intro hz0; rw [hz0] at hprev; exact lt_irrefl 0 hprev)
        have hfpres : ∀ a : LogEntry,
            (({ a with servings := prev } : LogEntry)).food_id = a.food_id :=
          fun a => rfl
        refine ⟨?_, ?_, ?_⟩ <;>
          simp only [DailyLog.undo, hstack, hfind, if_pos hprev]
        · rw [map_food_id_set_first _ _ hfpres]
          exact hnodup
        · intro b hb
          rcases mem_set_first _ _ _ b hb with h1 | ⟨a, ha, hba⟩
          · exact hposall b h1
          · subst hba
            exact hprev
        · intro x
          rw [present_set_first x _ _ hfpres]
          by_cases hx : fid = x
          · subst hx
            rw [hpres]
            exact hrest
          · have := hgood x
            rw [hstack] at this
            simpa [good_stack, if_neg hx] using this
      · have hz : prev = 0 ∧ good_stack fid rest false := by
          rcases hdisj with ⟨hp, _⟩ | hr
          · exact absurd hp hprev
          · exact hr
        refine ⟨?_, ?_, ?_⟩ <;>
          simp only [DailyLog.undo, hstack, hfind, if_neg hprev]
        · exact hnodup.sublist ((List.eraseP_sublist _).map LogEntry.food_id)
        · intro b hb
          exact hposall b (List.mem_of_mem_eraseP hb)
        · intro x
          by_cases hx : fid = x
          · subst hx
            rw [present_eraseP_self _ _ hnodup]
            exact hz.2
          · rw [present_eraseP_ne _ _ _ (fun hh => hx hh.symm)]
            have := hgood x
            rw [hstack] at this
            simpa [good_stack, if_neg hx] using this
    | remove e =>
      have hg := hgood e.food_id
      rw [hstack] at hg
      simp only [good_stack, if_pos rfl] at hg
      obtain ⟨habs, hpose, hrest⟩ := hg
      refine ⟨?_, ?_, ?_⟩ <;> simp only [DailyLog.undo, hstack]
      · simp only [List.map_append, List.map_cons, List.map_nil]
        rw [List.nodup_append]
        refine ⟨hnodup, by simp, ?_⟩
        intro a ha hb
        simp only [List.mem_singleton] at hb
        subst hb
        exact (present_false_iff_not_mem_map _ _).1 habs ha
      · intro b hb
        rcases List.mem_append.1 hb with h1 | h2
        · exact hposall b h1
        · simp only [List.mem_singleton] at h2
          subst h2
          exact hpose
      · intro x
        by_cases hx : e.food_id = x
        · subst hx
          rw [present_append_eq e.food_id log.entries e rfl]
          exact hrest
        · rw [present_append_ne x log.entries e hx]
          have := hgood x
          rw [hstack] at this
          simpa [good_stack, if_neg hx] using this

theorem log_wf_of_reachable (log : DailyLog) (h : LogReachable log) :
    log_wf log := by
  induction h with
  | new date =>
    refine ⟨by simp [DailyLog.new], by simp [DailyLog.new], ?_⟩
    intro x
    simp [DailyLog.new, good_stack]
  | step hr hs ih =>
    cases hs with
    | add_entry food servings hpos => exact log_wf_add _ food servings hpos ih
    | remove_entry food_id => exact log_wf_remove _ food_id ih
    | undo => exact log_wf_undo _ ih

/-- C6: every daily log reachable from a fresh empty log by any sequence
of `add_entry` (with positive servings), `remove_entry` and `undo`
operations has at most one entry per food identifier — uniqueness by
`food_id` is an invariant preserved by every operation, including undo
of removals interleaved with re-adds of the same food. -/
theorem claim_C6 (log : DailyLog) (h : LogReachable log) :
    (log.entries.map LogEntry.food_id).Nodup :=
  (log_wf_of_reachable log h).1

theorem claim_C6_witness :
    ((((DailyLog.new "2024-01-01").add_entry ⟨"apple", ["fruit"], 95⟩
        1).add_entry ⟨"apple", ["fruit"], 95⟩ 2).entries.map
      LogEntry.food_id).Nodup :=
  claim_C6 _
    (LogReachable.step
      (LogReachable.step (LogReachable.new "2024-01-01")
        (LogStep.add_entry _ ⟨"apple", ["fruit"], 95⟩ 1 (by norm_num)))
      (LogStep.add_entry _ ⟨"apple", ["fruit"], 95⟩ 2 (by norm_num)))

/-! ### Claim theorems: calorie summary over a date range -/

theorem Date.le_def (a b : Date) :
    a ≤ b ↔ (a.year < b.year ∨
      (a.year = b.year ∧
        (a.month < b.month ∨ (a.month = b.month ∧ a.day ≤ b.day)))) :=
  Iff.rfl

theorem Date.lt_def (a b : Date) :
    a < b ↔ (a.year < b.year ∨
      (a.year = b.year ∧
        (a.month < b.month ∨ (a.month = b.month ∧ a.day < b.day)))) :=
  Iff.rfl

theorem Date.le_refl (d : Date) : d ≤ d := by
  rw [Date.le_def]
  omega

theorem Date.le_trans (a b c : Date) (h1 : a ≤ b) (h2 : b ≤ c) : a ≤ c := by
  rw [Date.le_def] at h1 h2 ⊢
  omega

theorem Date.le_of_lt (a b : Date) (h : a < b) : a ≤ b := by
  rw [Date.lt_def] at h
  rw [Date.le_def]
  omega

theorem Date.lt_of_lt_of_le (a b c : Date) (h1 : a < b) (h2 : b ≤ c) :
    a < c := by
  rw [Date.lt_def] at h1 ⊢
  rw [Date.le_def] at h2
  omega

theorem Date.not_lt_of_le (a b : Date) (h : a ≤ b) : ¬ b < a := by
  rw [Date.le_def] at h
  rw [Date.lt_def]
  omega

theorem Date.lt_of_le_of_ne (a b : Date) (h1 : a ≤ b) (h2 : a ≠ b) :
    a < b := by
  obtain ⟨ay, am, ad⟩ := a
  obtain ⟨by_, bm, bd⟩ := b
  rw [Date.le_def] at h1
  rw [Date.lt_def]
  simp only [ne_eq, Date.mk.injEq] at h2
  dsimp only at h1 ⊢
  omega

theorem Date.days_in_month_le (y m : Nat) : Date.days_in_month y m ≤ 31 := by
  unfold Date.days_in_month
  split
  · split <;> omega
  · split <;> omega

theorem Date.days_in_month_pos (y m : Nat) : 1 ≤ Date.days_in_month y m := by
  unfold Date.days_in_month
  split
  · split <;> omega
  · split <;> omega

theorem Date.succ_valid (d : Date) (h : d.is_valid) : d.succ.is_valid := by
  obtain ⟨h1, h2, h3, h4⟩ := h
  have hp1 := Date.days_in_month_pos d.year (d.month + 1)
  have hp2 := Date.days_in_month_pos (d.year + 1) 1
  unfold Date.succ
  split_ifs with hc1 hc2 <;> (unfold Date.is_valid; dsimp only; omega)

theorem Date.lt_succ (d : Date) : d < d.succ := by
  unfold Date.succ
  split_ifs <;> (rw [Date.lt_def]; dsimp only; omega)

theorem Date.succ_le_of_lt (a b : Date) (ha : a.is_valid) (hb : b.is_valid)
    (h : a < b) : a.succ ≤ b := by
  obtain ⟨ham1, ham2, had1, had2⟩ := ha
  obtain ⟨hbm1, hbm2, hbd1, hbd2⟩ := hb
  rw [Date.lt_def] at h
  unfold Date.succ
  split_ifs with hc1 hc2
  · rw [Date.le_def]
    dsimp only
    omega
  · rw [Date.le_def]
    dsimp only
    rcases h with hy | ⟨hy, hm | ⟨hm, hd⟩⟩
    · omega
    · omega
    · exfalso
      rw [← hy, ← hm] at hbd2
      omega
  · rw [Date.le_def]
    dsimp only
    rcases h with hy | ⟨hy, hm | ⟨hm, hd⟩⟩
    · omega
    · omega
    · exfalso
      rw [← hy, ← hm] at hbd2
      omega

theorem Date.rank_lt_rank_succ (d : Date) (h : d.is_valid) :
    d.rank < d.succ.rank := by
  obtain ⟨h1, h2, h3, h4⟩ := h
  have h5 := Date.days_in_month_le d.year d.month
  unfold Date.succ Date.rank
  split_ifs <;> (dsimp only; omega)

theorem Date.rank_le_of_le (a b : Date) (ha : a.is_valid) (hb : b.is_valid)
    (h : a ≤ b) : a.rank ≤ b.rank := by
  obtain ⟨ham1, ham2, had1, had2⟩ := ha
  obtain ⟨hbm1, hbm2, hbd1, hbd2⟩ := hb
  have ha31 := Date.days_in_month_le a.year a.month
  have hb31 := Date.days_in_month_le b.year b.month
  rw [Date.le_def] at h
  unfold Date.rank
  omega

theorem mem_dates_from_to (fuel : Nat) (c en d : Date)
    (h : d ∈ dates_from_to fuel c en) : c ≤ d ∧ d ≤ en := by
  induction fuel generalizing c with
  | zero => simp [dates_from_to] at h
  | succ fuel ih =>
    unfold dates_from_to at h
    by_cases hc : c ≤ en
    · rw [if_pos hc] at h
      rcases List.mem_cons.1 h with h1 | h2
      · rw [h1]
        exact ⟨Date.le_refl c, hc⟩
      · obtain ⟨hd1, hd2⟩ := ih c.succ h2
        exact ⟨Date.le_trans c c.succ d
          (Date.le_of_lt c c.succ (Date.lt_succ c)) hd1, hd2⟩
    · rw [if_neg hc] at h
      simp at h

theorem valid_of_mem_dates_from_to (fuel : Nat) (c en d : Date)
    (hc : c.is_valid) (h : d ∈ dates_from_to fuel c en) : d.is_valid := by
  induction fuel generalizing c with
  | zero => simp [dates_from_to] at h
  | succ fuel ih =>
    unfold dates_from_to at h
    by_cases hle : c ≤ en
    · rw [if_pos hle] at h
      rcases List.mem_cons.1 h with h1 | h2
      · rw [h1]
        exact hc
      · exact ih c.succ (Date.succ_valid c hc) h2
    · rw [if_neg hle] at h
      simp at h

theorem dates_from_to_sorted (fuel : Nat) (c en : Date) :
    (dates_from_to fuel c en).Sorted Date.lt := by
  induction fuel generalizing c with
  | zero => simp [dates_from_to, List.Sorted]
  | succ fuel ih =>
    unfold dates_from_to
    by_cases hc : c ≤ en
    · rw [if_pos hc]
      refine List.Pairwise.cons ?_ (ih c.succ)
      intro d hd
      exact Date.lt_of_lt_of_le c c.succ d (Date.lt_succ c)
        (mem_dates_from_to fuel c.succ en d hd).1
    · rw [if_neg hc]
      simp [List.Sorted]

theorem mem_dates_from_to_of_between (fuel : Nat) (c en d : Date)
    (hc : c.is_valid) (hen : en.is_valid) (hd : d.is_valid)
    (h1 : c ≤ d) (h2 : d ≤ en) (hfuel : en.rank + 1 - c.rank ≤ fuel) :
    d ∈ dates_from_to fuel c en := by
  induction fuel generalizing c with
  | zero =>
    exfalso
    have hce : c ≤ en := Date.le_trans c d en h1 h2
    have := Date.rank_le_of_le c en hc hen hce
    omega
  | succ fuel ih =>
    have hce : c ≤ en := Date.le_trans c d en h1 h2
    unfold dates_from_to
    rw [if_pos hce]
    by_cases heq : c = d
    · rw [← heq]
      exact List.mem_cons_self c _
    · have hlt : c < d := Date.lt_of_le_of_ne c d h1 heq
      have hsucc : c.succ ≤ d := Date.succ_le_of_lt c d hc hd hlt
      have hrank := Date.rank_lt_rank_succ c hc
      refine List.mem_cons_of_mem c ?_
      exact ih c.succ (Date.succ_valid c hc) hsucc (by omega)

theorem summary_loop_eq_map (fl : FoodLog) (target : ℚ) (fuel : Nat)
    (c en : Date) :
    summary_loop fl target fuel c en =
      (dates_from_to fuel c en).map (summary_tuple fl target) := by
  induction fuel generalizing c with
  | zero => rfl
  | succ fuel ih =>
    unfold summary_loop dates_from_to
    by_cases hc : c ≤ en
    · rw [if_pos hc, if_pos hc, List.map_cons, ih]
    · rw [if_neg hc, if_neg hc, List.map_nil]

theorem parse_date_valid (s : String) (d : Date) (h : parse_date s = some d) :
    d.is_valid := by
  unfold parse_date at h
  split at h
  · split at h
    · split at h
      · rename_i hcond
        rw [Option.some_inj] at h
        subst h
        exact hcond.2.2.2
      · exact absurd h (by simp)
    · exact absurd h (by simp)
  · exact absurd h (by simp)

/-- C5: `get_calorie_summary` fails with `InvalidDate` when either bound
fails `%Y-%m-%d` calendar validation and with `InvalidRange` when
start > end; otherwise it returns, in ascending date order, exactly one
tuple per calendar date between the bounds inclusive, each pairing the
date with its actual logged calories (`0` for a date with no log), the
target and the difference `actual - target`; in particular, with no logs
at all every date yields actual `0` and difference `-target`. -/
theorem claim_C5 (fl : FoodLog) (profile : UserProfile) (sp ep : String) :
    ((parse_date sp = none ∨ parse_date ep = none) →
      get_calorie_summary fl sp ep profile =
        Except.error SummaryError.invalidDate) ∧
    (∀ s e, parse_date sp = some s → parse_date ep = some e → e < s →
      get_calorie_summary fl sp ep profile =
        Except.error SummaryError.invalidRange) ∧
    (∀ s e, parse_date sp = some s → parse_date ep = some e → s ≤ e →
      ∃ ds : List Date,
        get_calorie_summary fl sp ep profile =
          Except.ok (ds.map (summary_tuple fl profile.target_calorie)) ∧
        ds.Sorted Date.lt ∧
        (∀ d, d ∈ ds ↔ (d.is_valid ∧ s ≤ d ∧ d ≤ e)) ∧
        (fl.daily_logs = [] →
          ∀ t ∈ ds.map (summary_tuple fl profile.target_calorie),
            t.2.1 = 0 ∧ t.2.2.2 = -profile.target_calorie)) := by
  refine ⟨?_, ?_, ?_⟩
  · intro h
    cases hsp : parse_date sp with
    | none => simp [get_calorie_summary, hsp]
    | some s =>
      cases hep : parse_date ep with
      | none => simp [get_calorie_summary, hsp, hep]
      | some e =>
        exfalso
        rcases h with h | h
        · rw [hsp] at h
          exact absurd h (by simp)
        · rw [hep] at h
          exact absurd h (by simp)
  · intro s e hs he hlt
    simp [get_calorie_summary, hs, he, hlt]
  · intro s e hs he hle
    have hnot : ¬ e < s := Date.not_lt_of_le s e hle
    have hvs : s.is_valid := parse_date_valid sp s hs
    have hve : e.is_valid := parse_date_valid ep e he
    refine ⟨dates_from_to (e.rank + 1 - s.rank) s e, ?_, ?_, ?_, ?_⟩
    · simp [get_calorie_summary, hs, he, hnot, summary_loop_eq_map]
    · exact dates_from_to_sorted _ s e
    · intro d
      constructor
      · intro hd
        obtain ⟨h1, h2⟩ := mem_dates_from_to _ s e d hd
        exact ⟨valid_of_mem_dates_from_to _ s e d hvs hd, h1, h2⟩
      · intro ⟨hvd, h1, h2⟩
        exact mem_dates_from_to_of_between _ s e d hvs hve hvd h1 h2
          (Nat.le_refl _)
    · intro hempty t ht
      rw [List.mem_map] at ht
      obtain ⟨d, _, hdt⟩ := ht
      subst hdt
      simp [summary_tuple, FoodLog.calculate_calories_for_date, hempty]

theorem claim_C5_witness :
    ∃ ds : List Date,
      get_calorie_summary ⟨[]⟩ "2024-01-01" "2024-01-03" ⟨2000⟩ =
        Except.ok (ds.map (summary_tuple ⟨[]⟩ 2000)) ∧
      ds.Sorted Date.lt ∧
      (∀ d, d ∈ ds ↔
        (d.is_valid ∧ (⟨2024, 1, 1⟩ : Date) ≤ d ∧ d ≤ ⟨2024, 1, 3⟩)) ∧
      ((⟨[]⟩ : FoodLog).daily_logs = [] →
        ∀ t ∈ ds.map (summary_tuple ⟨[]⟩ 2000),
          t.2.1 = 0 ∧ t.2.2.2 = -(2000 : ℚ)) :=
  (claim_C5 ⟨[]⟩ ⟨2000⟩ "2024-01-01" "2024-01-03").2.2
    ⟨2024, 1, 1⟩ ⟨2024, 1, 3⟩ (by decide) (by decide) (by decide)
